import Mathlib

/-!
A shallow embedding of the install-decision core of `cargo-ensure-installed`
(`src/main.rs`, function `should_install`), together with models of the two
library facilities it relies on: semantic-version parsing and requirement
matching (the `semver` crate, v0.9 semantics) and the `.crates.toml`
manifest parsing (the `toml` crate, whose tables are ordered `BTreeMap`s).

Strings are handled through their underlying character lists so that every
definition is executable and kernel-reducible.
-/

/-! ### Character-list primitives -/

/-- The double-quote character, written via its code point. -/
def quoteChar : Char := Char.ofNat 34

/-- The hash character that opens a TOML comment line. -/
def hashChar : Char := Char.ofNat 35

/-- Byte-order on characters, via code points.  Agrees with Rust `str`
ordering (UTF-8 byte order equals code-point order). -/
def ltChar (a b : Char) : Bool := a.toNat < b.toNat

/-- Lexicographic strict order on character lists, mirroring Rust's
derived `Ord` for `String`. -/
def ltChars : List Char → List Char → Bool
  | _, [] => false
  | [], _ :: _ => true
  | a :: as, b :: bs =>
    if a.toNat < b.toNat then true
    else if b.toNat < a.toNat then false
    else ltChars as bs

/-- Lexicographic strict order on strings (Rust `String: Ord`). -/
def ltStr (a b : String) : Bool := ltChars a.data b.data

/-- Split a character list at every occurrence of `sep`, keeping empty
pieces; `n` separators yield `n + 1` pieces.  This is Rust's
`str::split` with a one-character pattern. -/
def splitOnC (sep : Char) : List Char → List (List Char)
  | [] => [[]]
  | c :: rest =>
    if c = sep then [] :: splitOnC sep rest
    else
      match splitOnC sep rest with
      | [] => [[c]]
      | p :: ps => (c :: p) :: ps

/-- Rust's `line.split(" ")` on a string, as a list of strings. -/
def splitOnSpace (line : String) : List String :=
  (splitOnC ' ' line.data).map (fun cs => ⟨cs⟩)

/-- Horizontal whitespace for line trimming. -/
def isWhite (c : Char) : Bool := c = ' ' || c = '\t' || c = '\r'

/-- Trim leading and trailing horizontal whitespace from a line. -/
def trimChars (l : List Char) : List Char :=
  ((l.dropWhile isWhite).reverse.dropWhile isWhite).reverse

/-- ASCII digit test. -/
def isDigitC (c : Char) : Bool := '0' ≤ c && c ≤ '9'

/-- Characters allowed in a semver identifier: alphanumerics and hyphen. -/
def isIdentChar (c : Char) : Bool :=
  isDigitC c || ('a' ≤ c && c ≤ 'z') || ('A' ≤ c && c ≤ 'Z') || c = '-'

/-- Characters allowed in a bare TOML key. -/
def isBareKeyChar (c : Char) : Bool := isIdentChar c || c = '_'

/-- Value of a digit list read in base 10. -/
def digitsToNat (l : List Char) : Nat :=
  l.foldl (fun acc c => 10 * acc + (c.toNat - 48)) 0

/-- Consume a non-empty run of digits from the front, returning its value
and the remainder. -/
def takeNat (cs : List Char) : Option (Nat × List Char) :=
  let digits := cs.takeWhile isDigitC
  if digits.isEmpty then none
  else some (digitsToNat digits, cs.dropWhile isDigitC)

/-- Consume one expected character. -/
def expectChar (c : Char) : List Char → Option (List Char)
  | [] => none
  | x :: rest => if x = c then some rest else none

/-! ### Semantic versions (model of the `semver` crate, v0.9) -/

/-- A pre-release / build identifier: purely numeric identifiers are kept
as numbers (`semver::Identifier::Numeric`), others as text
(`AlphaNumeric`). -/
inductive Ident where
  | numeric (n : Nat)
  | alpha (s : String)
deriving DecidableEq

/-- Strict order on identifiers, mirroring the derived `Ord` of
`semver::Identifier` (all `Numeric` sort before all `AlphaNumeric`). -/
def Ident.ltb : Ident → Ident → Bool
  | .numeric a, .numeric b => a < b
  | .numeric _, .alpha _ => true
  | .alpha _, .numeric _ => false
  | .alpha a, .alpha b => ltStr a b

/-- Lexicographic strict order on identifier lists (derived `Ord` of
`Vec<Identifier>`). -/
def identListLtb : List Ident → List Ident → Bool
  | _, [] => false
  | [], _ :: _ => true
  | a :: as, b :: bs =>
    if Ident.ltb a b then true
    else if Ident.ltb b a then false
    else identListLtb as bs

/-- A parsed semantic version (`semver::Version`). -/
structure Version where
  major : Nat
  minor : Nat
  patch : Nat
  pre : List Ident
  build : List Ident
deriving DecidableEq

/-- Parse a single semver identifier. -/
def parseIdent (cs : List Char) : Option Ident :=
  if cs.isEmpty then none
  else if cs.all isIdentChar then
    if cs.all isDigitC then some (.numeric (digitsToNat cs))
    else some (.alpha ⟨cs⟩)
  else none

/-- Parse a dot-separated non-empty identifier sequence. -/
def parseIdents (cs : List Char) : Option (List Ident) :=
  (splitOnC '.' cs).mapM parseIdent

/-- Parse the optional pre-release part: after a leading `-`, identifiers
up to the `+` that would start build metadata.  Returns the identifiers
and the unconsumed remainder. -/
def parsePre (cs : List Char) : Option (List Ident × List Char) :=
  match cs with
  | '-' :: rest =>
    let body := rest.takeWhile (fun c => c ≠ '+')
    match parseIdents body with
    | none => none
    | some ids => some (ids, rest.dropWhile (fun c => c ≠ '+'))
  | _ => some ([], cs)

/-- Parse the optional build-metadata part, which must reach the end. -/
def parseBuild (cs : List Char) : Option (List Ident) :=
  match cs with
  | [] => some []
  | '+' :: rest => parseIdents rest
  | _ => none

/-- `semver::Version::parse`: `major.minor.patch` with optional
`-pre` and `+build` suffixes; anything else fails. -/
def Version.parse (s : String) : Option Version := do
  let (major, r1) ← takeNat s.data
  let r2 ← expectChar '.' r1
  let (minor, r3) ← takeNat r2
  let r4 ← expectChar '.' r3
  let (patch, r5) ← takeNat r4
  let (pre, r6) ← parsePre r5
  let build ← parseBuild r6
  pure { major := major, minor := minor, patch := patch, pre := pre, build := build }

/-! ### Version requirements (model of `semver::VersionReq`, v0.9) -/

/-- Comparison operator of one requirement predicate. -/
inductive ReqOp where
  | ex | gt | gtEq | lt | ltEq | tilde | compatible
  | wildcardMajor | wildcardMinor | wildcardPatch
deriving DecidableEq

/-- One predicate of a version requirement (`semver::req::Predicate`). -/
structure Predicate where
  op : ReqOp
  major : Nat
  minor : Option Nat
  patch : Option Nat
  pre : List Ident
deriving DecidableEq

/-- A version requirement: a conjunction of predicates. -/
structure VersionReq where
  predicates : List Predicate
deriving DecidableEq

/-- `Predicate::is_exact`. -/
def Predicate.is_exact (p : Predicate) (v : Version) : Bool :=
  if p.major ≠ v.major then false
  else
    match p.minor with
    | none => true
    | some minor =>
      if minor ≠ v.minor then false
      else
        match p.patch with
        | none => true
        | some patch =>
          if patch ≠ v.patch then false
          else decide (p.pre = v.pre)

/-- `Predicate::is_greater`. -/
def Predicate.is_greater (p : Predicate) (v : Version) : Bool :=
  if p.major ≠ v.major then decide (v.major > p.major)
  else
    match p.minor with
    | none => false
    | some minor =>
      if minor ≠ v.minor then decide (v.minor > minor)
      else
        match p.patch with
        | none => false
        | some patch =>
          if patch ≠ v.patch then decide (v.patch > patch)
          else if !p.pre.isEmpty then v.pre.isEmpty || identListLtb p.pre v.pre
          else false

/-- `Predicate::pre_is_compatible`: the version's pre-release tag is empty
or at least the predicate's. -/
def Predicate.pre_is_compatible (p : Predicate) (v : Version) : Bool :=
  v.pre.isEmpty || !identListLtb v.pre p.pre

/-- `Predicate::matches_tilde`. -/
def Predicate.matches_tilde (p : Predicate) (v : Version) : Bool :=
  match p.minor with
  | none => decide (p.major = v.major)
  | some minor =>
    match p.patch with
    | none => decide (p.major = v.major ∧ minor = v.minor)
    | some patch =>
      decide (p.major = v.major) && decide (minor = v.minor) &&
        (decide (v.patch > patch) || (decide (v.patch = patch) && p.pre_is_compatible v))

/-- `Predicate::is_compatible`: caret semantics, the leftmost non-zero
component is the compatibility boundary. -/
def Predicate.is_compatible (p : Predicate) (v : Version) : Bool :=
  if p.major ≠ v.major then false
  else
    match p.minor with
    | none => true
    | some minor =>
      match p.patch with
      | none =>
        if p.major = 0 then decide (v.minor = minor) else decide (v.minor ≥ minor)
      | some patch =>
        if p.major = 0 then
          if minor = 0 then
            decide (v.minor = minor) && decide (v.patch = patch) && p.pre_is_compatible v
          else
            decide (v.minor = minor) &&
              (decide (v.patch > patch) || (decide (v.patch = patch) && p.pre_is_compatible v))
        else
          decide (v.minor > minor) ||
            (decide (v.minor = minor) &&
              (decide (v.patch > patch) || (decide (v.patch = patch) && p.pre_is_compatible v)))

/-- `Predicate::matches_wildcard`. -/
def Predicate.matches_wildcard (p : Predicate) (v : Version) : Bool :=
  match p.op with
  | .wildcardMajor => true
  | .wildcardMinor => decide (p.major = v.major)
  | .wildcardPatch => decide (p.major = v.major) && decide (p.minor = some v.minor)
  | _ => false

/-- `Predicate::matches`: dispatch on the operator. -/
def Predicate.matches (p : Predicate) (v : Version) : Bool :=
  match p.op with
  | .ex => p.is_exact v
  | .gt => p.is_greater v
  | .gtEq => p.is_exact v || p.is_greater v
  | .lt => !p.is_exact v && !p.is_greater v
  | .ltEq => !p.is_greater v
  | .tilde => p.matches_tilde v
  | .compatible => p.is_compatible v
  | .wildcardMajor => p.matches_wildcard v
  | .wildcardMinor => p.matches_wildcard v
  | .wildcardPatch => p.matches_wildcard v

/-- `Predicate::pre_tag_is_compatible`: a pre-release version only
matches a predicate naming the same triple with a pre-release tag. -/
def Predicate.pre_tag_is_compatible (p : Predicate) (v : Version) : Bool :=
  v.pre.isEmpty ||
    (decide (p.major = v.major) && decide (p.minor = some v.minor) &&
      decide (p.patch = some v.patch) && !p.pre.isEmpty)

/-- `VersionReq::matches`: every predicate matches and, unless the
requirement is empty, some predicate is pre-tag compatible. -/
def VersionReq.matches (r : VersionReq) (v : Version) : Bool :=
  if r.predicates.isEmpty then true
  else
    r.predicates.all (fun p => p.matches v) &&
      r.predicates.any (fun p => p.pre_tag_is_compatible v)

/-! ### The `.crates.toml` manifest (model of the `toml` crate, v0.4) -/

/-- A TOML value, as far as this program inspects it: tables keep an
ordered association list (the `toml` crate stores tables in a `BTreeMap`,
so keys are kept sorted); every other value is opaque to the program and
is retained as its raw text. -/
inductive TomlValue where
  | table (entries : List (String × TomlValue))
  | scalar (raw : String)

/-- `toml::Value::get` with a string index: a lookup in a table, `none`
on any other value. -/
def TomlValue.get (v : TomlValue) (key : String) : Option TomlValue :=
  match v with
  | .table es => es.lookup key
  | .scalar _ => none

/-- `toml::Value::as_table`. -/
def TomlValue.as_table : TomlValue → Option (List (String × TomlValue))
  | .table es => some es
  | .scalar _ => none

/-- Insert a key/value pair into a key-sorted association list, keeping it
sorted; `none` on a duplicate key (the `toml` crate rejects duplicate
keys and table redefinitions). -/
def insertEntry (k : String) (v : TomlValue) :
    List (String × TomlValue) → Option (List (String × TomlValue))
  | [] => some [(k, v)]
  | (k0, v0) :: rest =>
    if ltStr k k0 then some ((k, v) :: (k0, v0) :: rest)
    else if k = k0 then none
    else (insertEntry k v rest).map (fun r => (k0, v0) :: r)

/-- Parse a section header line `[name]` with a bare-key name. -/
def parseHeader (t : List Char) : Option String :=
  match t with
  | '[' :: rest =>
    match rest.getLast? with
    | some c =>
      if c = ']' then
        let inner := rest.dropLast
        if !inner.isEmpty && inner.all isBareKeyChar then some ⟨inner⟩ else none
      else none
    | none => none
  | _ => none

/-- Parse the ` = value` remainder of an assignment once the key has been
consumed; the value is kept as trimmed raw text. -/
def parseEq (after : List Char) : Option TomlValue :=
  match after.dropWhile isWhite with
  | '=' :: vpart =>
    let v := trimChars vpart
    if v.isEmpty then none else some (.scalar ⟨v⟩)
  | _ => none

/-- Parse an assignment line: a double-quoted or bare key, `=`, a value. -/
def parseAssign (t : List Char) : Option (String × TomlValue) :=
  match t with
  | [] => none
  | c :: rest =>
    if c = quoteChar then
      let key := rest.takeWhile (fun x => x ≠ quoteChar)
      match rest.dropWhile (fun x => x ≠ quoteChar) with
      | [] => none
      | _ :: after => (parseEq after).map (fun v => (⟨key⟩, v))
    else
      let key := t.takeWhile isBareKeyChar
      if key.isEmpty then none
      else (parseEq (t.dropWhile isBareKeyChar)).map (fun v => (⟨key⟩, v))

/-- Line-by-line parsing of the manifest: `root` is the top-level table
built so far, `cur` the section currently open.  A finished section is
flushed into the root table as a nested table. -/
def parseLines :
    List (List Char) → List (String × TomlValue) →
      Option (String × List (String × TomlValue)) →
      Option (List (String × TomlValue))
  | [], root, none => some root
  | [], root, some (n, es) => insertEntry n (.table es) root
  | l :: rest, root, cur =>
    let t := trimChars l
    if t.isEmpty then parseLines rest root cur
    else if t.head? = some hashChar then parseLines rest root cur
    else
      match parseHeader t with
      | some name =>
        match cur with
        | none => parseLines rest root (some (name, []))
        | some (n, es) =>
          match insertEntry n (.table es) root with
          | none => none
          | some root2 => parseLines rest root2 (some (name, []))
      | none =>
        match parseAssign t with
        | none => none
        | some (k, v) =>
          match cur with
          | none =>
            match insertEntry k v root with
            | none => none
            | some root2 => parseLines rest root2 none
          | some (n, es) =>
            match insertEntry k v es with
            | none => none
            | some es2 => parseLines rest root (some (n, es2))

/-- Parse a manifest text into its top-level TOML table
(`contents.parse::<toml::Value>()`). -/
def parseToml (contents : String) : Option TomlValue :=
  (parseLines (splitOnC '\n' contents.data) [] none).map .table

/-! ### The decision engine (`should_install`, src/main.rs lines 85-140) -/

/-- The error outcomes of `should_install`.  In the source every error is
a formatted string; the constructors mirror the five distinct formats and
keep the data each one embeds.  `aborted` models the `unwrap()` on the
version field, which would abort the process (a panic) instead of
returning. -/
inductive DecisionErr where
  | malformed (path : String)
  | missingSection (path : String)
  | wrongSectionType (path : String)
  | invalidVersion (path : String) (raw : String)
  | aborted
deriving DecidableEq

/-- `key.starts_with(&format!("{} ", package))`: the package name
followed by exactly one space must be a prefix of the entry key. -/
def keyMatches (package key : String) : Bool :=
  (package.data ++ [' ']).isPrefixOf key.data

/-- Lines 121-137: split the matched key on spaces, take the second
field, parse it as a version, and compare with the requirement. -/
def version_check (path line : String) (want_version : VersionReq) :
    Except DecisionErr Bool :=
  match (splitOnSpace line).get? 1 with
  | none => .error .aborted
  | some raw_version =>
    match Version.parse raw_version with
    | none => .error (.invalidVersion path raw_version)
    | some have_version => .ok (!want_version.matches have_version)

/-- Lines 95-139, the non-empty-manifest path: parse the text, require a
`v1` table, look for the first key carrying the package, and check its
version. -/
def decide_from_contents (path contents package : String)
    (want_version : VersionReq) : Except DecisionErr Bool :=
  match parseToml contents with
  | none => .error (.malformed path)
  | some value =>
    match value.get "v1" with
    | none => .error (.missingSection path)
    | some v1 =>
      match v1.as_table with
      | none => .error (.wrongSectionType path)
      | some table =>
        match (table.map Prod.fst).find? (fun k => keyMatches package k) with
        | some line => version_check path line want_version
        | none => .ok true

/-- `should_install` (lines 85-140): empty manifest text short-circuits
to `true`; otherwise the manifest is parsed and consulted. -/
def should_install (crates_toml_path crates_toml_contents package : String)
    (want_version : VersionReq) : Except DecisionErr Bool :=
  if crates_toml_contents.length = 0 then .ok true
  else decide_from_contents crates_toml_path crates_toml_contents package want_version

/-! ### Concrete scenarios (the crate's test suite, src/main.rs lines 149-244) -/

/-- The manifest path used by the tests. -/
def somePath : String := "/path/to/.crates.toml"

/-- `VersionReq::parse("0.9.0")`: one predicate, default (caret) operator. -/
def req_0_9_0 : VersionReq :=
  { predicates := [{ op := .compatible, major := 0, minor := some 9, patch := some 0, pre := [] }] }

/-- `VersionReq::parse("^0.0.9")`: one predicate, explicit caret. -/
def req_caret_0_0_9 : VersionReq :=
  { predicates := [{ op := .compatible, major := 0, minor := some 0, patch := some 9, pre := [] }] }

/-- The source descriptor appearing in every test entry key. -/
def registrySource : String := "(registry+https://github.com/rust-lang/crates.io-index)"

/-- A one-entry manifest around a `name version` pair, as in the tests. -/
def manifestFor (nameVer : String) : String :=
  "[v1]\n\"" ++ nameVer ++ " " ++ registrySource ++ "\" = [\"rustfmt\"]"

def m_rustfmt_0_9_0 : String := manifestFor "rustfmt 0.9.0"
def m_rustfmt_0_9_1 : String := manifestFor "rustfmt 0.9.1"
def m_rustfmt_0_10_0 : String := manifestFor "rustfmt 0.10.0"
def m_rustfmt_0_0_9 : String := manifestFor "rustfmt 0.0.9"
def m_rustfmt_0_0_10 : String := manifestFor "rustfmt 0.0.10"
def m_rustfmt2 : String := manifestFor "rustfmt2 1.0.0"
def m_protobuf : String := manifestFor "protobuf 1.4.2"
def m_banana : String := manifestFor "rustfmt banana"

deriving instance DecidableEq for Except

/-! ### Order lemmas for the key ordering -/

theorem charToNat_inj {a b : Char} (h : a.toNat = b.toNat) : a = b :=
  Char.ext (UInt32.ext h)

theorem ltChars_irrefl : ∀ l : List Char, ltChars l l = false := by
  intro l
  induction l with
  | nil => rfl
  | cons a as ih => simp [ltChars, ih]

theorem ltChars_asymm : ∀ a b : List Char, ltChars a b = true → ltChars b a = false := by
  intro a
  induction a with
  | nil =>
    intro b h
    cases b with
    | nil => simp [ltChars] at h
    | cons c cs => rfl
  | cons x xs ih =>
    intro b h
    cases b with
    | nil => simp [ltChars] at h
    | cons y ys =>
      rw [ltChars] at h ⊢
      by_cases h1 : x.toNat < y.toNat
      · simp [h1, Nat.lt_asymm h1]
      · by_cases h2 : y.toNat < x.toNat
        · simp [h1, h2] at h
        · simp only [h1, h2, if_false] at h ⊢
          exact ih ys h

theorem ltChars_trans :
    ∀ a b c : List Char, ltChars a b = true → ltChars b c = true → ltChars a c = true := by
  intro a
  induction a with
  | nil =>
    intro b c hab hbc
    cases c with
    | nil =>
      cases b with
      | nil => simp [ltChars] at hab
      | cons y ys => simp [ltChars] at hbc
    | cons z zs => rfl
  | cons x xs ih =>
    intro b c hab hbc
    cases b with
    | nil => simp [ltChars] at hab
    | cons y ys =>
      cases c with
      | nil => simp [ltChars] at hbc
      | cons z zs =>
        rw [ltChars] at hab hbc ⊢
        by_cases h1 : x.toNat < y.toNat
        · by_cases h2 : y.toNat < z.toNat
          · simp [Nat.lt_trans h1 h2]
          · by_cases h3 : z.toNat < y.toNat
            · simp [h2, h3] at hbc
            · have : y.toNat = z.toNat := Nat.le_antisymm (Nat.le_of_not_lt h3) (Nat.le_of_not_lt h2)
              simp [this ▸ h1]
        · by_cases h2 : y.toNat < x.toNat
          · simp [h1, h2] at hab
          · have hxy : x.toNat = y.toNat := Nat.le_antisymm (Nat.le_of_not_lt h2) (Nat.le_of_not_lt h1)
            simp only [h1, h2, if_false] at hab
            by_cases h3 : y.toNat < z.toNat
            · simp [hxy ▸ h3]
            · by_cases h4 : z.toNat < y.toNat
              · simp [h3, h4] at hbc
              · simp only [h3, h4, if_false] at hbc
                simp only [hxy ▸ h3, hxy ▸ h4, if_false]
                exact ih ys zs hab hbc

theorem ltChars_total (a b : List Char) :
    ltChars a b = true ∨ a = b ∨ ltChars b a = true := by
  induction a generalizing b with
  | nil =>
    cases b with
    | nil => exact Or.inr (Or.inl rfl)
    | cons y ys => exact Or.inl rfl
  | cons x xs ih =>
    cases b with
    | nil => exact Or.inr (Or.inr rfl)
    | cons y ys =>
      rcases Nat.lt_trichotomy x.toNat y.toNat with h1 | h1 | h1
      · exact Or.inl (by rw [ltChars]; simp [h1])
      · have hx : x = y := charToNat_inj h1
        subst hx
        rcases ih ys with h2 | h2 | h2
        · exact Or.inl (by rw [ltChars]; simp [h2])
        · exact Or.inr (Or.inl (by rw [h2]))
        · exact Or.inr (Or.inr (by rw [ltChars]; simp [h2]))
      · exact Or.inr (Or.inr (by rw [ltChars]; simp [h1]))

theorem ltStr_asymm {a b : String} (h : ltStr a b = true) : ltStr b a = false :=
  ltChars_asymm a.data b.data h

theorem ltStr_trans {a b c : String} (hab : ltStr a b = true) (hbc : ltStr b c = true) :
    ltStr a c = true :=
  ltChars_trans a.data b.data c.data hab hbc

theorem ltStr_total (a b : String) : ltStr a b = true ∨ a = b ∨ ltStr b a = true := by
  rcases ltChars_total a.data b.data with h | h | h
  · exact Or.inl h
  · exact Or.inr (Or.inl (String.ext h))
  · exact Or.inr (Or.inr h)

/-! ### Splitting and searching lemmas -/

theorem one_le_length_splitOnC (sep : Char) : ∀ l : List Char, 1 ≤ (splitOnC sep l).length := by
  intro l
  induction l with
  | nil => simp [splitOnC]
  | cons c cs ih =>
    rw [splitOnC]
    by_cases h : c = sep
    · simp [h]
    · simp only [h, if_false]
      cases hs : splitOnC sep cs with
      | nil => simp
      | cons p ps => simp

theorem two_le_length_splitOnC (sep : Char) :
    ∀ l : List Char, sep ∈ l → 2 ≤ (splitOnC sep l).length := by
  intro l
  induction l with
  | nil => intro h; simp at h
  | cons c cs ih =>
    intro h
    rw [splitOnC]
    by_cases hc : c = sep
    · have := one_le_length_splitOnC sep cs
      simp only [hc, if_true]
      simp only [List.length_cons]
      omega
    · have hmem : sep ∈ cs := by
        rcases List.mem_cons.mp h with h1 | h1
        · exact absurd h1.symm hc
        · exact h1
      have h2 := ih hmem
      simp only [hc, if_false]
      cases hs : splitOnC sep cs with
      | nil => rw [hs] at h2; simp at h2
      | cons p ps =>
        rw [hs] at h2
        simp only [List.length_cons] at h2 ⊢
        omega

theorem mem_of_lookup {k : String} {v : TomlValue} :
    ∀ {es : List (String × TomlValue)}, es.lookup k = some v → (k, v) ∈ es := by
  intro es
  induction es with
  | nil => intro h; simp [List.lookup] at h
  | cons e rest ih =>
    intro h
    cases e with
    | mk k0 v0 =>
      rw [List.lookup] at h
      by_cases hk : k = k0
      · subst hk
        simp only [beq_self_eq_true] at h
        cases h
        exact List.mem_cons_self _ _
      · have hne : (k == k0) = false := beq_eq_false_iff_ne.mpr hk
        rw [hne] at h
        exact List.mem_cons_of_mem _ (ih h)

theorem find?_min {α : Type} (r : α → α → Bool)
    (hasymm : ∀ a b : α, r a b = true → r b a = false) :
    ∀ (l : List α) (p : α → Bool) (x : α),
      l.Pairwise (fun a b => r a b = true) → l.find? p = some x →
      ∀ y ∈ l, p y = true → r y x = false := by
  intro r0
  induction r0 with
  | nil => intro p x _ h; simp at h
  | cons a as ih =>
    intro p x hpw hfind y hy hpy
    rcases List.pairwise_cons.mp hpw with ⟨ha, hpw2⟩
    by_cases hpa : p a = true
    · rw [List.find?_cons_of_pos _ hpa] at hfind
      cases hfind
      rcases List.mem_cons.mp hy with rfl | hy2
      · cases hb : r y y with
        | false => rfl
        | true => exact absurd (hasymm _ _ hb) (by simp [hb])
      · exact hasymm _ _ (ha y hy2)
    · have hfa : p a = false := by simpa using hpa
      rw [List.find?_cons_of_neg _ (by simp [hfa])] at hfind
      rcases List.mem_cons.mp hy with rfl | hy2
      · rw [hpy] at hfa; cases hfa
      · exact ih p x hpw2 hfind y hy2 hpy

/-! ### The matched key always carries a version field -/

theorem space_mem_of_keyMatches {package line : String} (h : keyMatches package line = true) :
    ' ' ∈ line.data := by
  rw [keyMatches] at h
  have hp : (package.data ++ [' ']) <+: line.data := List.isPrefixOf_iff_prefix.mp h
  exact hp.subset (List.mem_append_right _ (by simp))

theorem splitOnSpace_get1 {package line : String} (h : keyMatches package line = true) :
    ∃ raw, (splitOnSpace line).get? 1 = some raw := by
  have h2 : 2 ≤ (splitOnC ' ' line.data).length :=
    two_le_length_splitOnC ' ' line.data (space_mem_of_keyMatches h)
  have hlen : 1 < (splitOnSpace line).length := by
    rw [splitOnSpace, List.length_map]
    omega
  cases hg : (splitOnSpace line).get? 1 with
  | none =>
    rw [List.get?_eq_none] at hg
    omega
  | some raw => exact ⟨raw, rfl⟩

/-! ### The parsed table is an ordered map -/

/-- A table whose keys are strictly sorted, as a `BTreeMap`'s are. -/
def SortedT (es : List (String × TomlValue)) : Prop :=
  es.Pairwise (fun a b => ltStr a.1 b.1 = true)

/-- Every nested table value of a table is itself sorted. -/
def NestedSorted (es : List (String × TomlValue)) : Prop :=
  ∀ p ∈ es, ∀ vs, p.2 = TomlValue.table vs → SortedT vs

theorem insertEntry_mem {k : String} {v : TomlValue} :
    ∀ {l l' : List (String × TomlValue)}, insertEntry k v l = some l' →
      ∀ p ∈ l', p = (k, v) ∨ p ∈ l := by
  intro l
  induction l with
  | nil =>
    intro l' h p hp
    rw [insertEntry] at h
    cases h
    simp only [List.mem_singleton] at hp
    exact Or.inl hp
  | cons e rest ih =>
    intro l' h p hp
    cases e with
    | mk k0 v0 =>
      rw [insertEntry] at h
      by_cases h1 : ltStr k k0 = true
      · rw [if_pos h1] at h
        cases h
        rcases List.mem_cons.mp hp with rfl | hp2
        · exact Or.inl rfl
        · exact Or.inr hp2
      · rw [if_neg h1] at h
        by_cases h2 : k = k0
        · rw [if_pos h2] at h; cases h
        · rw [if_neg h2] at h
          rcases Option.map_eq_some'.mp h with ⟨r, hr, rfl⟩
          rcases List.mem_cons.mp hp with rfl | hp2
          · exact Or.inr (List.mem_cons_self _ _)
          · rcases ih hr p hp2 with h3 | h3
            · exact Or.inl h3
            · exact Or.inr (List.mem_cons_of_mem _ h3)

theorem insertEntry_sorted {k : String} {v : TomlValue} :
    ∀ {l l' : List (String × TomlValue)}, SortedT l → insertEntry k v l = some l' →
      SortedT l' := by
  intro l
  induction l with
  | nil =>
    intro l' _ h
    rw [insertEntry] at h
    cases h
    exact List.pairwise_singleton _ _
  | cons e rest ih =>
    intro l' hs h
    cases e with
    | mk k0 v0 =>
      rcases List.pairwise_cons.mp hs with ⟨h0, hrest⟩
      rw [insertEntry] at h
      by_cases h1 : ltStr k k0 = true
      · rw [if_pos h1] at h
        cases h
        refine List.pairwise_cons.mpr ⟨?_, hs⟩
        intro z hz
        rcases List.mem_cons.mp hz with rfl | hz2
        · exact h1
        · exact ltStr_trans h1 (h0 z hz2)
      · rw [if_neg h1] at h
        by_cases h2 : k = k0
        · rw [if_pos h2] at h; cases h
        · rw [if_neg h2] at h
          rcases Option.map_eq_some'.mp h with ⟨r, hr, rfl⟩
          refine List.pairwise_cons.mpr ⟨?_, ih hrest hr⟩
          intro z hz
          rcases insertEntry_mem hr z hz with rfl | hz2
          · rcases ltStr_total k k0 with h3 | h3 | h3
            · exact absurd h3 h1
            · exact absurd h3 h2
            · exact h3
          · exact h0 z hz2

theorem parseEq_scalar {after : List Char} {v : TomlValue} (h : parseEq after = some v) :
    ∃ s, v = TomlValue.scalar s := by
  rw [parseEq] at h
  split at h
  · dsimp only at h
    split at h
    · exact Option.noConfusion h
    · exact ⟨_, (Option.some.inj h).symm⟩
  · exact Option.noConfusion h

theorem parseAssign_scalar {t : List Char} {k : String} {v : TomlValue}
    (h : parseAssign t = some (k, v)) : ∃ s, v = TomlValue.scalar s := by
  cases t with
  | nil => simp [parseAssign] at h
  | cons c rest =>
    simp only [parseAssign] at h
    split at h
    · split at h
      · exact Option.noConfusion h
      · rcases Option.map_eq_some'.mp h with ⟨v2, hv2, heq⟩
        rcases parseEq_scalar hv2 with ⟨s, rfl⟩
        cases heq
        exact ⟨s, rfl⟩
    · split at h
      · exact Option.noConfusion h
      · rcases Option.map_eq_some'.mp h with ⟨v2, hv2, heq⟩
        rcases parseEq_scalar hv2 with ⟨s, rfl⟩
        cases heq
        exact ⟨s, rfl⟩

theorem parseLines_sorted :
    ∀ (lines : List (List Char)) (root : List (String × TomlValue))
      (cur : Option (String × List (String × TomlValue)))
      (out : List (String × TomlValue)),
      parseLines lines root cur = some out →
      SortedT root → NestedSorted root →
      (∀ n es, cur = some (n, es) → SortedT es) →
      SortedT out ∧ NestedSorted out := by
  intro lines
  induction lines with
  | nil =>
    intro root cur out h hs hn hc
    cases cur with
    | none =>
      rw [parseLines] at h
      cases h
      exact ⟨hs, hn⟩
    | some ne =>
      cases ne with
      | mk n es =>
        rw [parseLines] at h
        refine ⟨insertEntry_sorted hs h, ?_⟩
        intro p hp vs hpv
        rcases insertEntry_mem h p hp with rfl | hp2
        · simp only at hpv
          injection hpv with h3
          subst h3
          exact hc _ _ rfl
        · exact hn p hp2 vs hpv
  | cons l rest ih =>
    intro root cur out h hs hn hc
    cases cur with
    | none =>
      simp only [parseLines] at h
      split at h
      · exact ih _ _ _ h hs hn (fun n es he => by cases he)
      · split at h
        · exact ih _ _ _ h hs hn (fun n es he => by cases he)
        · split at h
          · exact ih _ _ _ h hs hn (fun n es he => by cases he; exact List.Pairwise.nil)
          · split at h
            · exact Option.noConfusion h
            · rename_i hassign
              split at h
              · exact Option.noConfusion h
              · rename_i root2 hins
                refine ih _ _ _ h (insertEntry_sorted hs hins) ?_ (fun n es he => by cases he)
                intro p hp vs hpv
                rcases insertEntry_mem hins p hp with rfl | hp2
                · rcases parseAssign_scalar hassign with ⟨s, rfl⟩
                  simp only at hpv
                  exact TomlValue.noConfusion hpv
                · exact hn p hp2 vs hpv
    | some ne =>
      cases ne with
      | mk n0 es0 =>
        simp only [parseLines] at h
        split at h
        · exact ih _ _ _ h hs hn hc
        · split at h
          · exact ih _ _ _ h hs hn hc
          · split at h
            · split at h
              · exact Option.noConfusion h
              · rename_i root2 hins
                refine ih _ _ _ h (insertEntry_sorted hs hins) ?_
                  (fun n es he => by cases he; exact List.Pairwise.nil)
                intro p hp vs hpv
                rcases insertEntry_mem hins p hp with rfl | hp2
                · simp only at hpv
                  injection hpv with h3
                  subst h3
                  exact hc _ _ rfl
                · exact hn p hp2 vs hpv
            · split at h
              · exact Option.noConfusion h
              · rename_i hassign
                split at h
                · exact Option.noConfusion h
                · rename_i es2 hins
                  refine ih _ _ _ h hs hn ?_
                  intro n es he
                  cases he
                  exact insertEntry_sorted (hc n0 es0 rfl) hins

theorem parseToml_tables {c : String} {root : TomlValue} (h : parseToml c = some root) :
    ∃ es, root = TomlValue.table es ∧ SortedT es ∧ NestedSorted es := by
  rw [parseToml] at h
  rcases Option.map_eq_some'.mp h with ⟨r, hr, rfl⟩
  rcases parseLines_sorted _ _ _ _ hr List.Pairwise.nil
      (fun p hp => absurd hp (List.not_mem_nil p)) (fun n es he => by cases he) with ⟨h1, h2⟩
  exact ⟨r, rfl, h1, h2⟩

theorem v1_table_sorted {c : String} {root : TomlValue} {es : List (String × TomlValue)}
    (hp : parseToml c = some root) (hv : root.get "v1" = some (TomlValue.table es)) :
    SortedT es := by
  rcases parseToml_tables hp with ⟨r, rfl, h1, h2⟩
  rw [TomlValue.get] at hv
  exact h2 _ (mem_of_lookup hv) es rfl

/-! ### Unfolding lemmas for `should_install` -/

theorem length_ne_zero_of_v1 {contents : String} {root v1 : TomlValue}
    (hp : parseToml contents = some root) (hv : root.get "v1" = some v1) :
    ¬ contents.length = 0 := by
  intro h0
  have hd : contents.data = [] := List.length_eq_zero.mp h0
  rw [parseToml, hd] at hp
  simp only [splitOnC, parseLines, trimChars, List.dropWhile, List.reverse_nil,
    List.isEmpty_nil, if_true, Option.map_some'] at hp
  cases hp.symm
  simp [TomlValue.get, List.lookup] at hv

theorem should_install_found {path contents package : String} {req : VersionReq}
    {root v1 : TomlValue} {table : List (String × TomlValue)} {line : String}
    (hp : parseToml contents = some root)
    (hv : root.get "v1" = some v1)
    (ht : v1.as_table = some table)
    (hf : (table.map Prod.fst).find? (fun k => keyMatches package k) = some line) :
    should_install path contents package req = version_check path line req := by
  have hne := length_ne_zero_of_v1 hp hv
  simp only [should_install, if_neg hne, decide_from_contents, hp, hv, ht, hf]

/-! ### The claims -/

/-- The version `0.9.0`. -/
def v_0_9_0 : Version := { major := 0, minor := 9, patch := 0, pre := [], build := [] }

/-- A `v1` section holding two entries for the same package, violating the
at-most-one-match invariant. -/
def entryA : String := "rustfmt 0.8.0 (registry+a)"

def entryB : String := "rustfmt 0.9.1 (registry+b)"

def m_two_rustfmt : String :=
  "[v1]\n\"" ++ entryA ++ "\" = [\"x\"]\n\"" ++ entryB ++ "\" = [\"y\"]"

/-- A manifest whose top-level `v1` key is not a table. -/
def m_v1_scalar : String := "v1 = 3"

/-- Claim C1: whenever the manifest's `v1` table contains an entry key
matched by the package-name prefix rule and the extracted second field
parses as a semantic version `V`, `should_install` returns
`Ok(!R.matches(V))`: `Ok(false)` when the requirement `R` matches `V`
and `Ok(true)` when it does not. -/
theorem C1_matched_version_decides
    (path contents package raw line : String) (req : VersionReq)
    (root v1 : TomlValue) (table : List (String × TomlValue)) (V : Version)
    (hp : parseToml contents = some root)
    (hv : root.get "v1" = some v1)
    (ht : v1.as_table = some table)
    (hf : (table.map Prod.fst).find? (fun k => keyMatches package k) = some line)
    (hraw : (splitOnSpace line).get? 1 = some raw)
    (hV : Version.parse raw = some V) :
    should_install path contents package req = .ok (!req.matches V) := by
  rw [should_install_found hp hv ht hf]
  simp only [version_check, hraw, hV]

/-- Witness for C1 at the crate's `exact_match` scenario: requirement
`0.9.0`, installed `rustfmt 0.9.0`, decision `Ok(false)`. -/
theorem C1_witness :
    should_install somePath m_rustfmt_0_9_0 "rustfmt" req_0_9_0 = .ok false :=
  (C1_matched_version_decides somePath m_rustfmt_0_9_0 "rustfmt" "0.9.0" _ req_0_9_0
      _ _ _ v_0_9_0 rfl rfl rfl rfl rfl rfl).trans (by decide)

/-- Claim C2: with requirement `0.9.0`, installed `rustfmt 0.9.1` skips the
install and `rustfmt 0.10.0` forces it; with requirement `^0.0.9`,
installed `0.0.9` skips and `0.0.10` forces. -/
theorem C2_caret_scenarios :
    should_install somePath m_rustfmt_0_9_1 "rustfmt" req_0_9_0 = .ok false ∧
    should_install somePath m_rustfmt_0_10_0 "rustfmt" req_0_9_0 = .ok true ∧
    should_install somePath m_rustfmt_0_0_9 "rustfmt" req_caret_0_0_9 = .ok false ∧
    should_install somePath m_rustfmt_0_0_10 "rustfmt" req_caret_0_0_9 = .ok true := by
  refine ⟨?_, ?_, ?_, ?_⟩ <;> decide

/-- Claim C3: the empty manifest text short-circuits to `Ok(true)` for any
package and requirement; the parser-backed path is really bypassed, for it
would instead report the missing `v1` section on empty input. -/
theorem C3_empty_contents (path package : String) (req : VersionReq) :
    should_install path "" package req = .ok true ∧
    decide_from_contents path "" package req = .error (.missingSection path) :=
  ⟨rfl, rfl⟩

/-- Claim C4: if no key of the parsed `v1` table starts with the exact
prefix `package` + one space, `should_install` returns `Ok(true)`. -/
theorem C4_no_matching_key (path contents package : String) (req : VersionReq)
    (root v1 : TomlValue) (table : List (String × TomlValue))
    (hp : parseToml contents = some root)
    (hv : root.get "v1" = some v1)
    (ht : v1.as_table = some table)
    (hnone : ∀ k ∈ table.map Prod.fst, keyMatches package k = false) :
    should_install path contents package req = .ok true := by
  have hne := length_ne_zero_of_v1 hp hv
  have hf : (table.map Prod.fst).find? (fun k => keyMatches package k) = none :=
    List.find?_eq_none.mpr (fun x hx => by simp [hnone x hx])
  simp only [should_install, if_neg hne, decide_from_contents, hp, hv, ht, hf]

/-- Witness for C4: an entry for `rustfmt2` is not matched when requesting
`rustfmt`, so the decision is `Ok(true)`. -/
theorem C4_witness :
    should_install somePath m_rustfmt2 "rustfmt" req_0_9_0 = .ok true :=
  C4_no_matching_key somePath m_rustfmt2 "rustfmt" req_0_9_0 _ _ _
    rfl rfl rfl (by decide)

/-- Claim C5: on non-empty text that parses, a missing top-level `v1`
section is the `MissingSection` error and a non-table `v1` is the
`WrongSectionType` error; neither case yields a boolean. -/
theorem C5_section_errors (path contents package : String) (req : VersionReq)
    (root : TomlValue)
    (hne : ¬ contents.length = 0)
    (hp : parseToml contents = some root) :
    (root.get "v1" = none →
      should_install path contents package req = .error (.missingSection path)) ∧
    (∀ v1, root.get "v1" = some v1 → v1.as_table = none →
      should_install path contents package req = .error (.wrongSectionType path)) := by
  constructor
  · intro hv
    simp only [should_install, if_neg hne, decide_from_contents, hp, hv]
  · intro v1 hv ht
    simp only [should_install, if_neg hne, decide_from_contents, hp, hv, ht]

/-- Witness for C5: `v1 = 3` parses but its `v1` is not a table, and the
decision is the `WrongSectionType` error. -/
theorem C5_witness :
    should_install somePath m_v1_scalar "rustfmt" req_0_9_0 =
      .error (.wrongSectionType somePath) :=
  (C5_section_errors somePath m_v1_scalar "rustfmt" req_0_9_0
      (TomlValue.table [("v1", TomlValue.scalar "3")]) (by decide) rfl).2
    (TomlValue.scalar "3") rfl rfl

/-- Claim C6: when the matched entry key's second space-delimited field
does not parse as a semantic version, `should_install` returns the
`InvalidVersion` error carrying that raw string and the manifest path. -/
theorem C6_invalid_version_error
    (path contents package raw line : String) (req : VersionReq)
    (root v1 : TomlValue) (table : List (String × TomlValue))
    (hp : parseToml contents = some root)
    (hv : root.get "v1" = some v1)
    (ht : v1.as_table = some table)
    (hf : (table.map Prod.fst).find? (fun k => keyMatches package k) = some line)
    (hraw : (splitOnSpace line).get? 1 = some raw)
    (hbad : Version.parse raw = none) :
    should_install path contents package req = .error (.invalidVersion path raw) := by
  rw [should_install_found hp hv ht hf]
  simp only [version_check, hraw, hbad]

/-- Witness for C6: an entry `rustfmt banana (...)` yields the
`InvalidVersion` error for the raw string `banana`. -/
theorem C6_witness :
    should_install somePath m_banana "rustfmt" req_0_9_0 =
      .error (.invalidVersion somePath "banana") :=
  C6_invalid_version_error somePath m_banana "rustfmt" "banana" _ req_0_9_0
    _ _ _ rfl rfl rfl rfl rfl rfl

/-- Claim C8: `should_install` is a pure, deterministic function of its four
arguments: equal inputs give equal results.  The embedding's type also
records that no effect (file or process) is involved. -/
theorem C8_deterministic (path1 contents1 package1 path2 contents2 package2 : String)
    (req1 req2 : VersionReq)
    (hpath : path1 = path2) (hcont : contents1 = contents2)
    (hpack : package1 = package2) (hreq : req1 = req2) :
    should_install path1 contents1 package1 req1 =
      should_install path2 contents2 package2 req2 := by
  subst hpath hcont hpack hreq
  rfl

/-- Witness for C8 at a concrete input. -/
theorem C8_witness :
    should_install somePath m_rustfmt_0_9_1 "rustfmt" req_0_9_0 =
      should_install somePath m_rustfmt_0_9_1 "rustfmt" req_0_9_0 :=
  C8_deterministic somePath m_rustfmt_0_9_1 "rustfmt" somePath m_rustfmt_0_9_1 "rustfmt"
    req_0_9_0 req_0_9_0 rfl rfl rfl rfl

/-- Claim C9: the version-field extraction can never hit the `unwrap`
panic: every key matched by the prefix rule contains a space, so the split
has at least two components, and `should_install` never returns the
`aborted` marker that models the panic. -/
theorem C9_unwrap_never_panics (path contents package : String) (req : VersionReq) :
    should_install path contents package req ≠ .error .aborted := by
  rw [should_install]
  split
  · simp
  · rw [decide_from_contents]
    split
    · simp
    · split
      · simp
      · split
        · simp
        · split
          · rename_i line hf
            have hkm : keyMatches package line = true := by
              simpa using List.find?_some hf
            rcases splitOnSpace_get1 hkm with ⟨raw, hraw⟩
            simp only [version_check, hraw]
            split <;> simp
          · simp

/-- Claim C10: even when several keys of the `v1` table match the package
prefix, `should_install` deterministically consults the first key in the
table's iteration order, which is the lexicographically smallest matching
key, the parsed table being an ordered map. -/
theorem C10_first_key_in_table_order (path contents package : String) (req : VersionReq)
    (root : TomlValue) (es : List (String × TomlValue)) (line : String)
    (hp : parseToml contents = some root)
    (hv : root.get "v1" = some (TomlValue.table es))
    (hf : (es.map Prod.fst).find? (fun k => keyMatches package k) = some line) :
    keyMatches package line = true ∧
      (∀ k ∈ es.map Prod.fst, keyMatches package k = true → ltStr k line = false) ∧
      should_install path contents package req = version_check path line req := by
  refine ⟨by simpa using List.find?_some hf, ?_, should_install_found hp hv rfl hf⟩
  have hsorted : SortedT es := v1_table_sorted hp hv
  have hkeys : (es.map Prod.fst).Pairwise (fun a b => ltStr a b = true) :=
    List.pairwise_map.mpr hsorted
  intro k hk hmk
  exact find?_min ltStr (fun a b h => ltStr_asymm h) _ _ _ hkeys hf k hk (by simpa using hmk)

/-- Witness for C10: with two `rustfmt` entries recorded, the decision is
computed from the lexicographically smaller key (`rustfmt 0.8.0 ...`). -/
theorem C10_witness :
    ltStr entryB entryA = false ∧
      should_install somePath m_two_rustfmt "rustfmt" req_0_9_0 =
        version_check somePath entryA req_0_9_0 := by
  have h := C10_first_key_in_table_order somePath m_two_rustfmt "rustfmt" req_0_9_0
    _ _ _ rfl rfl rfl
  exact ⟨h.2.1 entryB (by decide) (by decide), h.2.2⟩
